import Mathlib

/-!
Verification development for the TaxCode API (src/app.js).

The core of the program is pure string processing: `normalize`, `tokenize`,
`stemRegex`-based matching, `bestScore`, `expandSynonyms`, `makeSnippet`,
`splitIntoSections`, the `loadAll` concatenation of sections, and the
`/search` pipeline (priority "статья N" hits, scored hits over query
variants, numeric fallback, dedup by id keeping max score, sort by score
descending, truncation by the clamped limit).

Strings are modelled as `List Char` (`Str`).  The JavaScript regular
expressions used by the program are small and deterministic (no
back-reference, each quantifier is forced, see the comments at each
matcher), so every one of them is embedded as an executable Lean function
on `Str`.  Character classes:
  * JS `\s` is modelled by `isJsWs` (the ECMAScript WhiteSpace and
    LineTerminator sets);
  * JS `\w`/`\b` is modelled by `isAsciiWord`/`wordBoundary` (ASCII only,
    exactly as in ECMAScript: Cyrillic letters are NOT word characters);
  * JS `\p{L}`/`\p{N}` are modelled on the alphabets this program
    processes (ASCII and Cyrillic letters, ASCII digits);
  * `String.prototype.toLowerCase` is modelled by `toLowerJS` on the same
    alphabets (simple case mapping, identity elsewhere).
-/

namespace TaxCode

abbrev Str := List Char

/-- JS `\s` (WhiteSpace and LineTerminator): space, tab, LF, VT, FF, CR,
NBSP, Ogham space, U+2000 to U+200A, LS, PS, NNBSP, MMSP, ideographic
space, BOM. -/
def isJsWs (c : Char) : Bool :=
  let n := c.toNat
  n = 0x20 || n = 0x09 || n = 0x0A || n = 0x0B || n = 0x0C || n = 0x0D ||
  n = 0xA0 || n = 0x1680 || (0x2000 <= n && n <= 0x200A) ||
  n = 0x2028 || n = 0x2029 || n = 0x202F || n = 0x205F || n = 0x3000 || n = 0xFEFF

/-- JS `\w` (ASCII word character; note Cyrillic letters are not `\w`). -/
def isAsciiWord (c : Char) : Bool :=
  ('a' <= c && c <= 'z') || ('A' <= c && c <= 'Z') || ('0' <= c && c <= '9') || c = '_'

/-- JS `\d`. -/
def isJsDigit (c : Char) : Bool := '0' <= c && c <= '9'

/-- Models `\p{L}` restricted to the alphabets this program processes
(ASCII letters and the Cyrillic block U+0400 to U+04FF). -/
def isJsLetter (c : Char) : Bool :=
  ('a' <= c && c <= 'z') || ('A' <= c && c <= 'Z') ||
  (0x400 <= c.toNat && c.toNat <= 0x4FF)

/-- Models `String.prototype.toLowerCase` on ASCII and Cyrillic (simple case
mapping: A-Z, U+0410 to U+042F, U+0400 to U+040F incl. the letter Yo;
identity on all other characters). -/
def toLowerJS (c : Char) : Char :=
  if 'A' <= c && c <= 'Z' then Char.ofNat (c.toNat + 32)
  else if 0x410 <= c.toNat && c.toNat <= 0x42F then Char.ofNat (c.toNat + 0x20)
  else if 0x400 <= c.toNat && c.toNat <= 0x40F then Char.ofNat (c.toNat + 0x50)
  else c


/-- Models `.replace(/\s+/g, " ")`: each maximal run of JS whitespace becomes a
single space.  The boolean argument records whether the previous character
was whitespace. -/
def collapseWsAux : Bool → Str → Str
  | _, [] => []
  | prevWs, c :: cs =>
    if isJsWs c then
      if prevWs then collapseWsAux true cs else ' ' :: collapseWsAux true cs
    else c :: collapseWsAux false cs

def collapseWs (s : Str) : Str := collapseWsAux false s

/-- Models `String.prototype.trim` (strips JS whitespace at both ends). -/
def trimJs (s : Str) : Str :=
  ((s.dropWhile isJsWs).reverse.dropWhile isJsWs).reverse

/-- Models `hay.indexOf(pat)` (first occurrence; `none` models `-1`). -/
def jsIndexOfAux (pat : Str) : Str → Nat → Option Nat
  | [], i => if pat.isEmpty then some i else none
  | c :: cs, i =>
    if pat.isPrefixOf (c :: cs) then some i else jsIndexOfAux pat cs (i + 1)

def jsIndexOf (hay pat : Str) : Option Nat := jsIndexOfAux pat hay 0

/-- Length of the maximal run of characters satisfying `p` at the start of
`s` (used for a greedy `X*` whose continuation cannot start with an `X`
character, which makes the regex deterministic). -/
def skipCount (p : Char → Bool) (s : Str) : Nat := (s.takeWhile p).length

/-- Models `normalize` from app.js:
`String(s||"").toLowerCase().replace(/ё/g,"е").replace(/\s+/g," ").trim()`. -/
def normalize (s : Str) : Str :=
  trimJs (collapseWs (s.map (fun c =>
    let l := toLowerJS c
    if l = 'ё' then 'е' else l)))

/-- Models `.replace(/[^\p{L}\p{N}\s]/gu, " ")`: any character that is not a
letter, digit or whitespace becomes a space. -/
def punctToSpace (c : Char) : Char :=
  if isJsLetter c || isJsDigit c || isJsWs c then c else ' '

/-- Models `.split(" ")`: split at every single space character; empty pieces are
kept (the caller filters them). -/
def splitOnSpace : Str → List Str
  | [] => [[]]
  | c :: cs =>
    if c = ' ' then [] :: splitOnSpace cs
    else
      match splitOnSpace cs with
      | [] => [[c]]
      | p :: ps => (c :: p) :: ps

/-- Models `tokenize` from app.js:
`normalize(s).replace(/[^\p{L}\p{N}\s]/gu," ").split(" ").filter(Boolean)`. -/
def tokenize (s : Str) : List Str :=
  (splitOnSpace ((normalize s).map punctToSpace)).filter (fun p => !p.isEmpty)

/-- Is the character at position `i` a JS word character (`false` past the
ends of the string)? -/
def wordAtPos (s : Str) (i : Nat) : Bool :=
  match s.get? i with
  | some c => isAsciiWord c
  | none => false

/-- JS `\b` at position `i`: exactly one of the two adjacent positions
holds a word character. -/
def wordBoundary (s : Str) (i : Nat) : Bool :=
  (if i = 0 then false else wordAtPos s (i - 1)) != wordAtPos s i

/-- Case-insensitive (flag `i`) literal match of `pat` at position `i` of
`s`. -/
def ciPrefixAt (pat s : Str) (i : Nat) : Bool :=
  (pat.map toLowerJS).isPrefixOf ((s.drop i).map toLowerJS)

/-- The stem used by `stemRegex`:
`w.length >= 6 ? w.slice(0,5) : w.length >= 4 ? w.slice(0,4) : w`. -/
def stemBase (w : Str) : Str :=
  if w.length ≥ 6 then w.take 5 else if w.length ≥ 4 then w.take 4 else w

/-- One attempt of `stemRegex(t)` at start position `i` of `hay`:
`/\bNUM\b/i` for an all-digit term, `/\bBASE\w*/i` otherwise (the trailing
`\w*` never constrains whether a match exists at `i`, nor its index). -/
def stemMatchAt (hay t : Str) (i : Nat) : Bool :=
  if !t.isEmpty && t.all isJsDigit then
    wordBoundary hay i && ciPrefixAt t hay i && wordBoundary hay (i + t.length)
  else
    wordBoundary hay i && ciPrefixAt (stemBase t) hay i

/-- Models `hay.match(stemRegex(t)).index`: leftmost match position. -/
def stemFirstIndex (hay t : Str) : Option Nat :=
  (List.range (hay.length + 1)).find? (stemMatchAt hay t)

/-- Result record of `bestScore` (`-1` sentinels as in app.js). -/
structure ScoreRes where
  score : Nat
  posStart : Int
  posEnd : Int
deriving Repr, DecidableEq

/-- The token-path fold of `bestScore`: for each term in order, a match
adds `min(25, 2*t.length)` to the score, and the first matched term seeds
`firstPos`. -/
def tokenStep (hay : Str) (acc : Nat × Int) (t : Str) : Nat × Int :=
  match stemFirstIndex hay t with
  | some j => (acc.1 + min 25 (2 * t.length), if acc.2 < 0 then (j : Int) else acc.2)
  | none => acc

def tokenScan (hay : Str) (terms : List Str) : Nat × Int :=
  terms.foldl (tokenStep hay) (0, -1)

/-- Models `bestScore(hayRaw, phrase, terms)` from app.js. -/
def bestScore (hayRaw phrase : Str) (terms : List Str) : ScoreRes :=
  let hay := normalize hayRaw
  match (if phrase.isEmpty then none else jsIndexOf hay phrase) with
  | some idx => ⟨120 + phrase.length, idx, (idx : Int) + phrase.length⟩
  | none =>
    let r := tokenScan hay terms
    if r.1 > 0 then
      let posStart : Int := max 0 r.2
      ⟨r.1, posStart, min (hay.length : Int) (posStart + 80)⟩
    else ⟨0, -1, -1⟩

/-- Models `makeSnippet(text, start, end, pad = 160)` from app.js.  `start` and
`end` are only ever supplied non-negative, so they are `Nat` here and the
truncated subtraction `start - 160` models `Math.max(0, start - pad)`. -/
def makeSnippet (text : Str) (start endPos : Nat) : Str :=
  let beg := start - 160
  let fin := min text.length (endPos + 160)
  let snip := trimJs (collapseWs ((text.drop beg).take (fin - beg)))
  let snip := if 0 < beg then ("… ".data) ++ snip else snip
  if fin < text.length then snip ++ (" …".data) else snip

/-- Models `/\bW\b/` (case-sensitive `test`). -/
def testWordB (w s : Str) : Bool :=
  (List.range (s.length + 1)).any (fun i =>
    wordBoundary s i && w.isPrefixOf (s.drop i) && wordBoundary s (i + w.length))

/-- Models `/\bBASE\w*\b/` (case-sensitive `test`): some start `i` with a
boundary, the literal base, then some run of `j ≤ maximal` word characters
ending at a boundary (regex backtracking over the greedy `\w*`). -/
def testStemB (base s : Str) : Bool :=
  (List.range (s.length + 1)).any (fun i =>
    wordBoundary s i && base.isPrefixOf (s.drop i) &&
    (let run := skipCount isAsciiWord (s.drop (i + base.length))
     (List.range (run + 1)).any (fun j => wordBoundary s (i + base.length + j))))

/-- Models `Array.from(new Set(xs))`: keep the first occurrence of each element,
in order. -/
def dedupKeepFirstAux (seen : List Str) : List Str → List Str
  | [] => []
  | x :: xs =>
    if seen.contains x then dedupKeepFirstAux seen xs
    else x :: dedupKeepFirstAux (x :: seen) xs

def dedupKeepFirst (l : List Str) : List Str := dedupKeepFirstAux [] l

/-- Models `expandSynonyms(q)` from app.js. -/
def expandSynonyms (q : Str) : List Str :=
  let nq := normalize q
  let out := [nq]
  let out :=
    if testWordB "ндс".data nq || testWordB "НДС".data q then
      out ++ ["налог на добавленную стоимость".data]
    else out
  let out :=
    if testStemB "транспорт".data nq && testStemB "налог".data nq then
      out ++ ["налог на транспортные средства".data,
              "налогообложение транспортных средств".data,
              "налог на автомобили".data]
    else out
  let out :=
    if testStemB "индивидуаль".data nq && testStemB "предпринимател".data nq then
      out ++ ["ИП".data, "индивидуальные предприниматели".data]
    else out
  dedupKeepFirst out

/-! ## Sectionizer (`splitIntoSections`) and loader (`loadAll`) -/

/-- One section record (`{ id, title, url, text }` in app.js). -/
structure Sect where
  id : Nat
  title : Str
  url : Str
  text : Str
deriving Repr, DecidableEq

/-- The keyword alternation of `headerRe`
(`СТАТЬЯ|Статья|ГЛАВА|Глава|РАЗДЕЛ|Раздел`, case-sensitive). -/
def headerKeywords : List Str :=
  ["СТАТЬЯ".data, "Статья".data, "ГЛАВА".data, "Глава".data,
   "РАЗДЕЛ".data, "Раздел".data]

/-- Models `(?:[.\:\-–—])?`, the optional punctuation after the numeral. -/
def isHeaderPunct (c : Char) : Bool :=
  c = '.' || c = ':' || c = '-' || c.toNat = 0x2013 || c.toNat = 0x2014

/-- The tail `(?:[.\:\-–—])?\s` of `headerRe`/`artRe` after the numeral:
either a whitespace character, or one punctuation character followed by a
whitespace character.  (Backtracking cannot help: the punctuation
characters are not whitespace.) -/
def headerTailOk : Str → Bool
  | [] => false
  | c :: rest =>
    if isJsWs c then true
    else if isHeaderPunct c then
      match rest with
      | [] => false
      | d :: _ => isJsWs d
    else false

/-- The body `\s*(?:KEYWORDS)[\s ]*\d+(?:[.\:\-–—])?\s` of `headerRe`
matched at the start of `s`.  Each greedy star is forced (its continuation
cannot start with a character of the starred class), so the regex is
deterministic: skip maximal whitespace, match one keyword, skip maximal
whitespace (U+00A0 already is JS whitespace), take the maximal digit run
(at least one digit), then the tail. -/
def headerBodyFrom (s : Str) : Bool :=
  let s1 := s.drop (skipCount isJsWs s)
  match headerKeywords.find? (fun kw => kw.isPrefixOf s1) with
  | none => false
  | some kw =>
    let s2 := s1.drop kw.length
    let s3 := s2.drop (skipCount isJsWs s2)
    let ds := s3.takeWhile isJsDigit
    if ds.isEmpty then false else headerTailOk (s3.drop ds.length)

/-- The split positions of `rawText.split(headerRe)`: the lookahead is
zero-width, so (per the ECMAScript `split` algorithm) a piece boundary is
placed at every position `0 < i < length` where `^` holds (`m` flag:
the previous character is a newline) and the lookahead body matches. -/
def headerCutpoints (t : Str) : List Nat :=
  (List.range t.length).filter (fun i =>
    decide (0 < i) && (t.get? (i - 1) == some '\n') && headerBodyFrom (t.drop i))

/-- The pieces of `t` between consecutive cut positions (first piece from
0, last piece to the end). -/
def slicesFrom (t : Str) : Nat → List Nat → List Str
  | start, [] => t.drop start
      |> (fun r => [r])
  | start, c :: cs => ((t.drop start).take (c - start)) :: slicesFrom t c cs

/-- Models `rawText.split(headerRe).map(s => s.trim()).filter(Boolean)`. -/
def headerChunks (t : Str) : List Str :=
  ((slicesFrom t 0 (headerCutpoints t)).map trimJs).filter (fun c => !c.isEmpty)

/-- Models `Number(`${docIndex+1}${String(local).padStart(3,"0")}`)`: the decimal
digits of `docIndex+1` concatenated with the digits of `loc` left-padded
with zeros to at least 3 places.  The value of that digit string is
`(docIndex+1) * 10 ^ (padded length) + loc`.  The padded length is
`max 3 (number of digits of loc)`: exactly 3 when `loc` has at most three
digits (`loc ≤ 999`), and the digit count `Nat.log 10 loc + 1` otherwise. -/
def composeId (docIndex loc : Nat) : Nat :=
  (docIndex + 1) * 10 ^ (if loc ≤ 999 then 3 else Nat.log 10 loc + 1) + loc

/-- Models `(chunk.split(/\n/, 1)[0] || "").slice(0, 200)`: the part of the chunk
before its first newline, truncated to 200 characters. -/
def firstLine200 (chunk : Str) : Str :=
  (chunk.takeWhile (fun c => c != '\n')).take 200

/-- Models `title = firstLine || chunk.slice(0, 200)`. -/
def titleOf (chunk : Str) : Str :=
  if (firstLine200 chunk).isEmpty then chunk.take 200 else firstLine200 chunk

def wholeDocTitle : Str := "Документ (целиком)".data

/-- Models `splitIntoSections(rawText, url, docIndex)` from app.js. -/
def splitIntoSections (rawText url : Str) (docIndex : Nat) : List Sect :=
  let chunks := headerChunks rawText
  if chunks.length ≤ 1 then
    [{ id := docIndex + 1, title := wholeDocTitle, url := url, text := rawText }]
  else
    chunks.enum.map (fun p =>
      { id := composeId docIndex (p.1 + 1), title := titleOf p.2,
        url := url, text := p.2 })

/-- One configured source after fetching/extraction: `text = none` models
a source whose `loadOne` threw (the `catch` contributes no sections but
the running index `i++` was already consumed). -/
structure SourceFetch where
  url : Str
  text : Option Str
deriving Repr, DecidableEq

/-- The loop of `loadAll`, with `i` the index of the first source. -/
def loadAllFrom : Nat → List SourceFetch → List Sect
  | _, [] => []
  | i, s :: rest =>
    (match s.text with
     | none => []
     | some t => splitIntoSections t s.url i) ++ loadAllFrom (i + 1) rest

/-- Models `loadAll()` from app.js: sections of all sources concatenated in
configuration order (`SECTIONS`). -/
def loadAll (sources : List SourceFetch) : List Sect := loadAllFrom 0 sources

/-- Number of chunks a source contributes (0 for a failed fetch). -/
def chunkCount (s : SourceFetch) : Nat :=
  match s.text with
  | none => 0
  | some t => (headerChunks t).length

/-! ## The `/search` pipeline -/

/-- A search hit (`{ id, title, url, score, excerpt }` in app.js). -/
structure Hit where
  id : Nat
  title : Str
  url : Str
  score : Nat
  excerpt : Str
deriving Repr, DecidableEq

/-- The JSON `limit` value as seen after `Number(...)`: an integer or NaN
(`Number` of a non-numeric string).  `none` at the call site models an
absent `limit` (the `?? 10` default applies). -/
inductive LimitVal
  | num (n : Int)
  | nan
deriving Repr, DecidableEq

/-- Models `Math.max(1, Math.min(50, Number(req.body?.limit ?? 10)))`: NaN
propagates through `Math.min`/`Math.max`. -/
def effLimit : Option LimitVal → LimitVal
  | none => .num 10
  | some (.num n) => .num (max 1 (min 50 n))
  | some .nan => .nan

/-- Models `list.slice(0, e)` for a JS number `e`: NaN converts to 0; a negative
`e` counts from the end (`max 0 (len + e)`). -/
def jsSliceTo (l : List α) : LimitVal → List α
  | .nan => []
  | .num n => if 0 ≤ n then l.take n.toNat else l.take (l.length - n.natAbs)

/-- First match of `/стать[ьяи]\s*№?\s*(\d{1,4})/iu` tried at position `i`
of `q`; returns the captured digits.  The quantifiers are forced (`№` and
digits are not whitespace), so after the case-folded literal `стать` and
one of `ь`/`я`/`и` the engine skips maximal whitespace, takes `№` exactly
when present, skips maximal whitespace, and needs at least one digit
(greedily up to 4). -/
def citationAt (q : Str) (i : Nat) : Option Str :=
  let rest := (q.drop i).map toLowerJS
  if "стать".data.isPrefixOf rest then
    match rest.drop 5 with
    | [] => none
    | c :: rest2 =>
      if c = 'ь' || c = 'я' || c = 'и' then
        let r3 := rest2.drop (skipCount isJsWs rest2)
        let r4 := match r3 with
                  | '№' :: r => r
                  | _ => r3
        let r5 := r4.drop (skipCount isJsWs r4)
        let ds := (r5.takeWhile isJsDigit).take 4
        if ds.isEmpty then none else some ds
      else none
  else none

/-- Models `q.match(/стать[ьяи]\s*№?\s*(\d{1,4})/iu)` (leftmost match), the
captured numeral. -/
def citationNum (q : Str) : Option Str :=
  (List.range (q.length + 1)).findSome? (citationAt q)

/-- Body of `artRe` = `^\s*(?:СТАТЬЯ|Статья)[\s ]*NUM(?:[.\:\-–—])?\s`
matched at the start of `s` (same determinism argument as
`headerBodyFrom`; `NUM` is a literal). -/
def artBodyFrom (s num : Str) : Bool :=
  let s1 := s.drop (skipCount isJsWs s)
  match (["СТАТЬЯ".data, "Статья".data]).find? (fun kw => kw.isPrefixOf s1) with
  | none => false
  | some kw =>
    let s2 := s1.drop kw.length
    let s3 := s2.drop (skipCount isJsWs s2)
    if num.isPrefixOf s3 then headerTailOk (s3.drop num.length) else false

/-- Models `s.text.match(artRe).index` (`m` flag: `^` holds at position 0 or
after a newline; leftmost match position). -/
def artIndex (t num : Str) : Option Nat :=
  (List.range (t.length + 1)).find? (fun i =>
    (decide (i = 0) || (t.get? (i - 1) == some '\n')) && artBodyFrom (t.drop i) num)

/-- The priority loop (`// приоритет: "статья N"`): for each section whose
text matches `artRe`, a hit with score 999. -/
def priorityHits (S : List Sect) (q : Str) : List Hit :=
  match citationNum q with
  | none => []
  | some num =>
    S.filterMap (fun s =>
      (artIndex s.text num).map (fun pos =>
        { id := s.id, title := s.title, url := s.url, score := 999,
          excerpt := makeSnippet s.text pos (pos + num.length + 20) }))

/-- One (variant, section) step of the scored loop: a hit exactly when
`bestScore` is positive.  When the score is positive both positions are
non-negative, so `Int.toNat` is exact. -/
def scoredOne (v : Str) (s : Sect) : Option Hit :=
  let phrase := normalize v
  let terms := tokenize v
  let r := bestScore s.text phrase terms
  if r.score > 0 then
    some { id := s.id, title := s.title, url := s.url, score := r.score,
           excerpt := makeSnippet s.text r.posStart.toNat r.posEnd.toNat }
  else none

/-- The scored loop (`// обычный "мягкий" поиск`): variants outer,
sections inner. -/
def scoredHits (S : List Sect) (q : Str) : List Hit :=
  (expandSynonyms q).flatMap (fun v => S.filterMap (scoredOne v))

/-- All maximal digit runs of `s` (`q.match(/\d+/g)`), via a split that
keeps digit runs together. -/
def digitRunsSplit : Str → List Str
  | [] => [[]]
  | c :: cs =>
    if isJsDigit c then
      match digitRunsSplit cs with
      | [] => [[c]]
      | r :: rs => (c :: r) :: rs
    else [] :: digitRunsSplit cs

def digitRuns (s : Str) : List Str :=
  (digitRunsSplit s).filter (fun r => !r.isEmpty)

/-- Models `(q.match(/\d+/g) || []).slice(0, 2)`. -/
def fallbackNums (q : Str) : List Str := (digitRuns q).take 2

/-- The inner fallback loop for one section: the first numeral that occurs
in the normalized text produces a hit with score 5 (then `break`).  Note
the snippet is built on the raw text with the index found in the
normalized text, exactly as in app.js. -/
def fallbackHit (nums : List Str) (s : Sect) : Option Hit :=
  match nums.findSome? (fun n =>
      (jsIndexOf (normalize s.text) n).map (fun idx => (n, idx))) with
  | some (n, idx) =>
    some { id := s.id, title := s.title, url := s.url, score := 5,
           excerpt := makeSnippet s.text idx (idx + n.length) }
  | none => none

/-- The fallback loop (`// fallback по цифрам`). -/
def fallbackHits (S : List Sect) (q : Str) : List Hit :=
  S.filterMap (fallbackHit (fallbackNums q))

/-- Models `allHits` after the three phases: fallback contributes only when the
priority and scored phases produced nothing. -/
def allCandidates (S : List Sect) (q : Str) : List Hit :=
  let base := priorityHits S q ++ scoredHits S q
  if base.isEmpty then fallbackHits S q else base

/-- One step of the `dedup` Map loop: `Map.set` keeps the original key
position when overwriting, appends new keys, and overwrites only on a
strictly larger score. -/
def dedupStep (acc : List Hit) (h : Hit) : List Hit :=
  if acc.any (fun p => p.id == h.id) then
    acc.map (fun p => if p.id == h.id && decide (p.score < h.score) then h else p)
  else acc ++ [h]

def dedupHits (hits : List Hit) : List Hit := hits.foldl dedupStep []

/-- The comparator `(a, b) => b.score - a.score` as the ordering relation
"a may come before b": `b.score ≤ a.score`. -/
def hitGE (a b : Hit) : Prop := b.score ≤ a.score

instance : DecidableRel hitGE := fun a b => Nat.decLe b.score a.score

instance hitGE_total : IsTotal Hit hitGE := ⟨fun a b => Nat.le_total b.score a.score⟩

instance hitGE_trans : IsTrans Hit hitGE := ⟨fun _ _ _ h1 h2 => Nat.le_trans h2 h1⟩

/-- Models `.sort((a, b) => b.score - a.score)`: ECMAScript `Array.prototype.sort`
is a stable sort, and every stable sort of a list by the same total
preorder produces the same output, so it is modelled by a stable insertion
sort ordered by score descending. -/
def sortHits (hits : List Hit) : List Hit :=
  hits.insertionSort hitGE

/-- The hit list returned by a successful `/search` (query already
trimmed and non-empty). -/
def searchResults (S : List Sect) (q : Str) (lim : Option LimitVal) : List Hit :=
  jsSliceTo (sortHits (dedupHits (allCandidates S q))) (effLimit lim)

/-- A `/search` response. -/
inductive SearchResp
  | badRequest
  | ok (hits : List Hit)
deriving Repr, DecidableEq

/-- The `/search` handler: trim the query, reject it when empty, otherwise
run the pipeline. -/
def searchHandler (S : List Sect) (rawQ : Str) (lim : Option LimitVal) : SearchResp :=
  let q := trimJs rawQ
  if q.isEmpty then .badRequest else .ok (searchResults S q lim)

/-- The handler as a transition on the application state (`SECTIONS`): the
handler only reads the store. -/
def searchApp (st : List Sect) (rawQ : Str) (lim : Option LimitVal) :
    List Sect × SearchResp :=
  (st, searchHandler st rawQ lim)

/-! ## Theorems -/

/-- C5: for every input text in which no section header is recognized (the
split yields zero or one chunk), the sectionizer returns exactly one
synthetic section whose text is the entire input text. -/
theorem C5_single_synthetic_section (t u : Str) (i : Nat)
    (h : (headerChunks t).length ≤ 1) :
    splitIntoSections t u i =
      [{ id := i + 1, title := wholeDocTitle, url := u, text := t }] := by
  unfold splitIntoSections
  simp [h]

theorem C5_single_synthetic_section_witness :
    (headerChunks "hello".data).length ≤ 1 ∧
    splitIntoSections "hello".data "u".data 4 =
      [{ id := 5, title := wholeDocTitle, url := "u".data, text := "hello".data }] :=
  ⟨by decide, C5_single_synthetic_section "hello".data "u".data 4 (by decide)⟩

/-- C9: the sectionizer is a pure, deterministic, total Lean function of
the triple (text, url, index): applied to equal triples it yields
identical section sequences (and, being a total function, it is defined
for all inputs). -/
theorem C9_sectionizer_deterministic (t₁ t₂ u₁ u₂ : Str) (i₁ i₂ : Nat)
    (ht : t₁ = t₂) (hu : u₁ = u₂) (hi : i₁ = i₂) :
    splitIntoSections t₁ u₁ i₁ = splitIntoSections t₂ u₂ i₂ := by
  rw [ht, hu, hi]

theorem C9_sectionizer_deterministic_witness :
    splitIntoSections "a".data "u".data 0 = splitIntoSections "a".data "u".data 0 :=
  C9_sectionizer_deterministic "a".data "a".data "u".data "u".data 0 0 rfl rfl rfl

/-- C8: searching with an empty or whitespace-only query is rejected with
`bad_request`, this is the only failure mode of the handler, and the
handler never modifies the Section Store. -/
theorem C8_empty_query_rejected (S : List Sect) (q : Str) (lim : Option LimitVal) :
    (searchApp S q lim).1 = S ∧
    ((searchApp S q lim).2 = SearchResp.badRequest ↔ trimJs q = []) := by
  refine ⟨rfl, ?_⟩
  unfold searchApp searchHandler
  by_cases h : (trimJs q).isEmpty
  · simp only [h, if_pos]
    simpa using List.isEmpty_iff.mp h
  · simp only [h, Bool.false_eq_true, if_false]
    constructor
    · intro hc
      exact absurd hc (by simp)
    · intro he
      exact absurd (List.isEmpty_iff.mpr he) (by simp [h])

theorem C8_empty_query_rejected_witness :
    (searchApp [] "  ".data none).1 = [] ∧
    ((searchApp [] "  ".data none).2 = SearchResp.badRequest ↔ trimJs "  ".data = []) :=
  C8_empty_query_rejected [] "  ".data none

/-- A one-section store used by concrete counterexamples. -/
def cexC2Store : List Sect :=
  [{ id := 7, title := "t".data, url := "u".data, text := "The Tax Code".data }]

/-- C2, counterexample: the claim says an invalid `limit` defaults to 10.
In the code `Number` of a non-numeric limit is NaN, which survives
`Math.min`/`Math.max`, and `Array.prototype.slice(0, NaN)` truncates to
zero elements: a store and query that produce one hit return that hit when
`limit` is unspecified, but return NO hits when `limit` is invalid. -/
theorem C2_counterexample :
    (searchResults cexC2Store "tax".data (some LimitVal.nan)).length = 0 ∧
    (searchResults cexC2Store "tax".data none).length = 1 := by
  decide

/-- The length of a `slice(0, m)` for a non-negative `m`. -/
theorem jsSliceTo_num_length_le (l : List Hit) (m : Int) (hm : 0 ≤ m) :
    (jsSliceTo l (LimitVal.num m)).length ≤ m.toNat := by
  simp only [jsSliceTo, if_pos hm, List.length_take]
  omega

/-- C2 (amended): the effective limit is `max 1 (min 50 n)` for a numeric
limit `n` (so it lies in `[1, 50]`) and 10 when the limit is unspecified,
and the returned hit list never exceeds the effective limit nor 50; an
invalid (NaN) limit instead yields an empty hit list (not the default
10). -/
theorem C2_limit_clamped (S : List Sect) (q : Str) (lim : Option LimitVal) :
    (searchResults S q lim).length ≤ 50 ∧
    (lim = none → (searchResults S q lim).length ≤ 10) ∧
    (∀ n : Int, lim = some (LimitVal.num n) →
      effLimit lim = LimitVal.num (max 1 (min 50 n)) ∧
      1 ≤ max 1 (min 50 n) ∧ max 1 (min 50 n) ≤ 50 ∧
      (searchResults S q lim).length ≤ (max 1 (min 50 n)).toNat) ∧
    (lim = some LimitVal.nan → searchResults S q lim = []) := by
  rcases lim with _ | v
  · have h10 : (searchResults S q none).length ≤ 10 := by
      have := jsSliceTo_num_length_le (sortHits (dedupHits (allCandidates S q))) 10
        (by norm_num)
      simpa [searchResults, effLimit] using this
    refine ⟨by omega, fun _ => h10, fun n hn => ?_, fun h => ?_⟩
    · exact absurd hn (by simp)
    · exact absurd h (by simp)
  · rcases v with n | _
    · have hb : (searchResults S q (some (LimitVal.num n))).length ≤
          (max 1 (min 50 n)).toNat := by
        have := jsSliceTo_num_length_le (sortHits (dedupHits (allCandidates S q)))
          (max 1 (min 50 n)) (by omega)
        simpa [searchResults, effLimit] using this
      have h50 : (max 1 (min 50 n)).toNat ≤ 50 := by omega
      refine ⟨by omega, fun h => absurd h (by simp), fun m hm => ?_,
        fun h => absurd h (by simp)⟩
      cases hm
      exact ⟨rfl, by omega, by omega, hb⟩
    · have hz : searchResults S q (some LimitVal.nan) = [] := by
        simp [searchResults, effLimit, jsSliceTo]
      refine ⟨by rw [hz]; simp, fun h => absurd h (by simp), fun n hn => ?_, fun _ => hz⟩
      exact absurd hn (by simp)

theorem C2_limit_clamped_witness :
    (searchResults cexC2Store "tax".data (some (LimitVal.num 500))).length ≤ 50 ∧
    (some (LimitVal.num 500) = none →
      (searchResults cexC2Store "tax".data (some (LimitVal.num 500))).length ≤ 10) ∧
    (∀ n : Int, some (LimitVal.num 500) = some (LimitVal.num n) →
      effLimit (some (LimitVal.num 500)) = LimitVal.num (max 1 (min 50 n)) ∧
      1 ≤ max 1 (min 50 n) ∧ max 1 (min 50 n) ≤ 50 ∧
      (searchResults cexC2Store "tax".data (some (LimitVal.num 500))).length ≤
        (max 1 (min 50 n)).toNat) ∧
    (some (LimitVal.num 500) = some LimitVal.nan →
      searchResults cexC2Store "tax".data (some (LimitVal.num 500)) = []) :=
  C2_limit_clamped cexC2Store "tax".data (some (LimitVal.num 500))

/-- The claim's "the chunk's first line" (everything before the first
newline), with no length bound. -/
def firstLineOf (c : Str) : Str := c.takeWhile (fun ch => ch != '\n')

/-- A two-chunk text whose first chunk's first line is 210 characters
long. -/
def cexC4Text : Str := (List.replicate 210 'a') ++ "\nСтатья 1 b".data

set_option maxRecDepth 40000

/-- C4, counterexample: in a text with two or more chunks the sections'
titles are NOT always the chunks' first lines: the code truncates the
first line to 200 characters (`slice(0, 200)`), so a 210-character first
line yields a 200-character title.  (The first lines here are non-empty,
so the claim's "if absent" branch does not apply.) -/
theorem C4_counterexample :
    2 ≤ (headerChunks cexC4Text).length ∧
    (∀ c ∈ headerChunks cexC4Text, firstLineOf c ≠ []) ∧
    (splitIntoSections cexC4Text "u".data 0).map Sect.title ≠
      (headerChunks cexC4Text).map firstLineOf := by
  decide

/-- The title exactly as §4.2 of the spec describes it once the 200
character truncation is made explicit. -/
def specTitle (c : Str) : Str :=
  if firstLineOf c = [] then c.take 200 else (firstLineOf c).take 200

/-- Models `titleOf` agrees with the amended description. -/
theorem titleOf_eq_specTitle (c : Str) : titleOf c = specTitle c := by
  unfold titleOf specTitle firstLine200 firstLineOf
  by_cases h : c.takeWhile (fun ch => ch != '\n') = []
  · simp [h]
  · have h2 : (c.takeWhile (fun ch => ch != '\n')).take 200 ≠ [] := by
      rw [Ne, List.take_eq_nil_iff]
      push_neg
      exact ⟨by omega, h⟩
    simp [List.isEmpty_iff, h, h2]

/-- Models `composeId` is plain positional arithmetic while the local ordinal has
at most three digits. -/
theorem composeId_eq (i k : Nat) (_h1 : 1 ≤ k) (h9 : k ≤ 999) :
    composeId i k = (i + 1) * 1000 + k := by
  unfold composeId
  rw [if_pos h9]
  norm_num

/-- C4 (amended): for a text with two or more chunks, the `k`-th chunk
(0-based `k`, local ordinal `k+1`) becomes the section with id
`(i+1)*1000 + (k+1)` provided the ordinal has at most three digits
(`k+1 ≤ 999`; beyond that the digit-string concatenation produces a
different value), whose title is the first 200 characters of the chunk's
first line (or of the chunk itself if the first line is empty) and whose
text is the chunk. -/
theorem C4_chunk_id_title (t u : Str) (i k : Nat)
    (h2 : 2 ≤ (headerChunks t).length) (hk : k < (headerChunks t).length)
    (h999 : k + 1 ≤ 999) :
    (splitIntoSections t u i)[k]? =
      some { id := (i + 1) * 1000 + (k + 1),
             title := specTitle ((headerChunks t).getD k []),
             url := u,
             text := (headerChunks t).getD k [] } := by
  unfold splitIntoSections
  rw [if_neg (by omega)]
  rw [List.getElem?_map, List.getElem?_enum]
  have hsome : (headerChunks t)[k]? = some ((headerChunks t).getD k []) := by
    rw [List.getElem?_eq_getElem hk]
    rw [List.getD_eq_getElem _ _ hk]
  rw [hsome]
  simp only [Option.map_some']
  rw [composeId_eq i (k + 1) (by omega) h999, titleOf_eq_specTitle]

theorem C4_chunk_id_title_witness :
    2 ≤ (headerChunks "a\nСтатья 1 b".data).length ∧
    (1 : Nat) < (headerChunks "a\nСтатья 1 b".data).length ∧
    (splitIntoSections "a\nСтатья 1 b".data "u".data 3)[1]? =
      some { id := 4 * 1000 + 2,
             title := specTitle ((headerChunks "a\nСтатья 1 b".data).getD 1 []),
             url := "u".data,
             text := (headerChunks "a\nСтатья 1 b".data).getD 1 [] } :=
  ⟨by decide, by decide,
   C4_chunk_id_title "a\nСтатья 1 b".data "u".data 3 1 (by decide) (by decide) (by decide)⟩

/-- 1001 configured sources: the first splits into two chunks (ids 1001
and 1002), the remaining 1000 are single-chunk documents (ids 2..1001). -/
def cexC1Sources : List SourceFetch :=
  { url := "u".data, text := some "a\nСтатья 1 b".data } ::
    List.replicate 1000 { url := "u".data, text := some "x".data }

/-- C1, counterexample: with 1001 sources the id `1001` is produced twice
(chunk 1 of source 0 gets `Number("1"+"001") = 1001`, and the single-chunk
source with index 1000 gets `1000 + 1 = 1001`), so the section ids of a
full load are NOT pairwise distinct regardless of source count. -/
theorem C1_counterexample :
    ¬ (((loadAll cexC1Sources).map Sect.id).Nodup) := by
  intro h
  have hc : ((loadAll cexC1Sources).map Sect.id).count 1001 = 2 := by decide
  have := List.nodup_iff_count_le_one.mp h 1001
  omega

/-- The source index an id came from, when every source has at most 999
chunks and at most 1000 sources are configured: single-chunk ids are
`i + 1 ≤ 1000` and multi-chunk ids are `(i+1)*1000 + k ≥ 1001`. -/
def decodeSrc (v : Nat) : Nat := if v ≤ 1000 then v - 1 else v / 1000 - 1

/-- The ids produced for a multi-chunk source. -/
theorem ids_split_multi (t u : Str) (i : Nat)
    (h : ¬ (headerChunks t).length ≤ 1) (h9 : (headerChunks t).length ≤ 999) :
    (splitIntoSections t u i).map Sect.id =
      (List.range (headerChunks t).length).map (fun k => (i + 1) * 1000 + (k + 1)) := by
  unfold splitIntoSections
  rw [if_neg h, List.map_map]
  have h2 : (Sect.id ∘ fun p : Nat × Str =>
      ({ id := composeId i (p.1 + 1), title := titleOf p.2,
         url := u, text := p.2 } : Sect)) =
      (fun k : Nat => composeId i (k + 1)) ∘ Prod.fst := rfl
  rw [h2, ← List.map_map, List.enum_map_fst]
  apply List.map_congr_left
  intro k hk
  have hk' : k < (headerChunks t).length := List.mem_range.mp hk
  exact composeId_eq i (k + 1) (by omega) (by omega)

/-- Within one source, section ids do not repeat (given at most 999
chunks). -/
theorem nodup_ids_split (t u : Str) (i : Nat) (h9 : (headerChunks t).length ≤ 999) :
    ((splitIntoSections t u i).map Sect.id).Nodup := by
  by_cases h : (headerChunks t).length ≤ 1
  · simp [splitIntoSections, h]
  · rw [ids_split_multi t u i h h9]
    exact List.Nodup.map (fun a b hab => by omega) (List.nodup_range _)

/-- Every id of a source with index `i ≤ 999` decodes back to `i`. -/
theorem decode_ids_split (t u : Str) (i v : Nat)
    (h9 : (headerChunks t).length ≤ 999) (hi : i ≤ 999)
    (hv : v ∈ (splitIntoSections t u i).map Sect.id) : decodeSrc v = i := by
  by_cases h : (headerChunks t).length ≤ 1
  · simp [splitIntoSections, h] at hv
    subst hv
    simp only [decodeSrc]
    rw [if_pos (by omega)]
    omega
  · rw [ids_split_multi t u i h h9] at hv
    simp only [List.mem_map, List.mem_range] at hv
    obtain ⟨k, hk, rfl⟩ := hv
    have hk9 : k + 1 ≤ 999 := by omega
    simp only [decodeSrc]
    rw [if_neg (by omega)]
    omega

/-- Id uniqueness and the index lower bound for the tail of the load loop
starting at source index `i`. -/
theorem loadAllFrom_ids (srcs : List SourceFetch) : ∀ i : Nat,
    i + srcs.length ≤ 1000 → (∀ s ∈ srcs, chunkCount s ≤ 999) →
    ((loadAllFrom i srcs).map Sect.id).Nodup ∧
      ∀ v ∈ (loadAllFrom i srcs).map Sect.id, i ≤ decodeSrc v := by
  induction srcs with
  | nil =>
    intro i _ _
    exact ⟨List.nodup_nil, by simp [loadAllFrom]⟩
  | cons s rest ih =>
    intro i hlen hcc
    have hi : i ≤ 999 := by simp only [List.length_cons] at hlen; omega
    have hrest := ih (i + 1) (by simp only [List.length_cons] at hlen ⊢; omega)
      (fun x hx => hcc x (List.mem_cons_of_mem s hx))
    rcases hs : s.text with _ | t
    · simp only [loadAllFrom, hs, List.nil_append]
      exact ⟨hrest.1, fun v hv => by have := hrest.2 v hv; omega⟩
    · have h9 : (headerChunks t).length ≤ 999 := by
        have := hcc s (List.mem_cons_self s rest)
        rw [chunkCount, hs] at this
        exact this
      simp only [loadAllFrom, hs, List.map_append]
      refine ⟨List.Nodup.append (nodup_ids_split t s.url i h9) hrest.1 ?_, ?_⟩
      · intro v hv1 hv2
        have e1 : decodeSrc v = i := decode_ids_split t s.url i v h9 hi hv1
        have e2 : i + 1 ≤ decodeSrc v := hrest.2 v hv2
        omega
      · intro v hv
        rcases List.mem_append.mp hv with h | h
        · rw [decode_ids_split t s.url i v h9 hi h]
        · have := hrest.2 v h
          omega

/-- C1 (amended): the section ids of a full load/reload are pairwise
distinct provided at most 1000 sources are configured and every source
splits into at most 999 chunks (beyond those bounds the id scheme
collides, see the counterexample). -/
theorem C1_ids_unique (sources : List SourceFetch)
    (hn : sources.length ≤ 1000)
    (hc : ∀ s ∈ sources, chunkCount s ≤ 999) :
    ((loadAll sources).map Sect.id).Nodup :=
  (loadAllFrom_ids sources 0 (by omega) hc).1

def c1WitnessSources : List SourceFetch :=
  [{ url := "u".data, text := some "a\nСтатья 1 b".data },
   { url := "w".data, text := some "x".data },
   { url := "z".data, text := none }]

theorem C1_ids_unique_witness :
    c1WitnessSources.length ≤ 1000 ∧
    (∀ s ∈ c1WitnessSources, chunkCount s ≤ 999) ∧
    ((loadAll c1WitnessSources).map Sect.id).Nodup :=
  ⟨by decide, by decide, C1_ids_unique c1WitnessSources (by decide) (by decide)⟩

/-- The store and query of the C6 counterexample: the query "статьи5"
matches the citation pattern (num = "5") and the section's text carries a
"Статья 5 " header, so the priority path fires; but the scored path finds
nothing: the phrase "статьи5" is not a substring of the normalized text,
and the single term "статьи5" can never match because its stem regex
`\bстать\w*` requires an ASCII word character before the Cyrillic stem
(ECMAScript `\b` is ASCII-only). -/
def cexC6Store : List Sect :=
  [{ id := 1, title := "t".data, url := "u".data, text := "Статья 5 x".data }]

def cexC6Query : Str := "статьи5".data

/-- C6, counterexample: the fallback is gated on ALL candidate hits
(priority ++ scored), not on the scored search alone.  Here the scored
search produces zero candidate hits, yet the fallback does not run (the
priority path produced a hit), and no score-5 hit ever reaches the
results even though the fallback would have produced one. -/
theorem C6_counterexample :
    scoredHits cexC6Store cexC6Query = [] ∧
    priorityHits cexC6Store cexC6Query ≠ [] ∧
    fallbackHits cexC6Store cexC6Query ≠ [] ∧
    allCandidates cexC6Store cexC6Query = priorityHits cexC6Store cexC6Query ∧
    ∀ h ∈ searchResults cexC6Store cexC6Query none, h.score ≠ 5 := by
  decide

/-- C6 (amended): the numeric fallback runs if and only if the priority
("статья N") path and the scored search together produced zero candidate
hits; when it runs it extracts at most 2 numeral tokens from the raw
query and adds at most one hit per section, each with fixed score 5; when
the priority or scored phase produced any hit, no fallback hit is
added. -/
theorem C6_fallback_gating (S : List Sect) (q : Str) :
    (priorityHits S q ++ scoredHits S q = [] →
      allCandidates S q = fallbackHits S q) ∧
    (priorityHits S q ++ scoredHits S q ≠ [] →
      allCandidates S q = priorityHits S q ++ scoredHits S q) ∧
    (fallbackNums q).length ≤ 2 ∧
    (∀ h ∈ fallbackHits S q, h.score = 5) ∧
    (fallbackHits S q).length ≤ S.length := by
  refine ⟨?_, ?_, ?_, ?_, ?_⟩
  · intro h
    unfold allCandidates
    rw [if_pos (List.isEmpty_iff.mpr h)]
  · intro h
    unfold allCandidates
    rw [if_neg (by simpa [List.isEmpty_iff] using h)]
  · unfold fallbackNums
    simp [List.length_take]
  · intro h hmem
    unfold fallbackHits at hmem
    obtain ⟨s, _, hf⟩ := List.mem_filterMap.mp hmem
    unfold fallbackHit at hf
    rcases hm : (fallbackNums q).findSome? (fun n =>
        (jsIndexOf (normalize s.text) n).map (fun idx => (n, idx))) with _ | p
    · rw [hm] at hf
      cases hf
    · rw [hm] at hf
      cases hf
      rfl
  · exact List.length_filterMap_le _ _

theorem C6_fallback_gating_witness :
    (priorityHits cexC2Store "qqq 53".data ++ scoredHits cexC2Store "qqq 53".data = [] →
      allCandidates cexC2Store "qqq 53".data = fallbackHits cexC2Store "qqq 53".data) ∧
    (priorityHits cexC2Store "qqq 53".data ++ scoredHits cexC2Store "qqq 53".data ≠ [] →
      allCandidates cexC2Store "qqq 53".data =
        priorityHits cexC2Store "qqq 53".data ++ scoredHits cexC2Store "qqq 53".data) ∧
    (fallbackNums "qqq 53".data).length ≤ 2 ∧
    (∀ h ∈ fallbackHits cexC2Store "qqq 53".data, h.score = 5) ∧
    (fallbackHits cexC2Store "qqq 53".data).length ≤ cexC2Store.length :=
  C6_fallback_gating cexC2Store "qqq 53".data

/-- Models `splitOnSpace` never returns an empty list of pieces. -/
theorem splitOnSpace_ne_nil (l : Str) : splitOnSpace l ≠ [] := by
  induction l with
  | nil => simp [splitOnSpace]
  | cons c cs ih =>
    unfold splitOnSpace
    by_cases h : c = ' '
    · simp [h]
    · rw [if_neg h]
      rcases hs : splitOnSpace cs with _ | ⟨p, ps⟩
      · simp
      · simp

/-- Splitting on single spaces: the piece lengths plus the piece count
total the string length plus one (one separator between consecutive
pieces). -/
theorem splitOnSpace_sum (l : Str) :
    ((splitOnSpace l).map List.length).sum + (splitOnSpace l).length = l.length + 1 := by
  induction l with
  | nil => simp [splitOnSpace]
  | cons c cs ih =>
    unfold splitOnSpace
    by_cases h : c = ' '
    · rw [if_pos h]
      simp only [List.map_cons, List.length_nil, List.sum_cons, List.length_cons]
      omega
    · rw [if_neg h]
      rcases hs : splitOnSpace cs with _ | ⟨p, ps⟩
      · exact absurd hs (splitOnSpace_ne_nil cs)
      · rw [hs] at ih
        simp only [List.map_cons, List.sum_cons, List.length_cons] at ih ⊢
        omega

/-- Keeping only some pieces can only decrease both the length total and
the piece count. -/
theorem sum_length_filter_le (p : Str → Bool) (l : List Str) :
    (((l.filter p).map List.length).sum + (l.filter p).length ≤
      (l.map List.length).sum + l.length) := by
  induction l with
  | nil => simp
  | cons x xs ih =>
    by_cases h : p x
    · simp only [List.filter_cons, h, if_pos, List.map_cons, List.sum_cons,
        List.length_cons]
      omega
    · simp only [List.filter_cons, h, Bool.false_eq_true, if_false, List.map_cons,
        List.sum_cons, List.length_cons]
      omega

/-- The tokens of a query fit inside its normalized phrase: total token
length plus token count is at most phrase length plus one (each adjacent
pair of tokens is separated by at least one character). -/
theorem tokenize_length_bound (s : Str) :
    ((tokenize s).map List.length).sum + (tokenize s).length ≤
      (normalize s).length + 1 := by
  unfold tokenize
  have h1 := sum_length_filter_le (fun p => !p.isEmpty)
    (splitOnSpace ((normalize s).map punctToSpace))
  have h2 := splitOnSpace_sum ((normalize s).map punctToSpace)
  rw [List.length_map] at h2
  omega

/-- Every token is non-empty. -/
theorem tokenize_pos_length (s : Str) : ∀ t ∈ tokenize s, 1 ≤ t.length := by
  intro t ht
  unfold tokenize at ht
  have := List.of_mem_filter ht
  rcases t with _ | _
  · simp at this
  · simp

/-- The token count is at most the total token length. -/
theorem card_le_sum_lengths (l : List Str) (h : ∀ t ∈ l, 1 ≤ t.length) :
    l.length ≤ (l.map List.length).sum := by
  induction l with
  | nil => simp
  | cons x xs ih =>
    simp only [List.map_cons, List.sum_cons, List.length_cons]
    have hx := h x (List.mem_cons_self x xs)
    have := ih (fun t ht => h t (List.mem_cons_of_mem x ht))
    omega

/-- The token-path score is bounded by the per-term contributions
`min 25 (2 * length)`. -/
theorem tokenScan_le (hay : Str) (terms : List Str) :
    (tokenScan hay terms).1 ≤ (terms.map (fun t => min 25 (2 * t.length))).sum := by
  unfold tokenScan
  suffices h : ∀ acc : Nat × Int, (terms.foldl (tokenStep hay) acc).1 ≤
      acc.1 + (terms.map (fun t => min 25 (2 * t.length))).sum by
    simpa using h (0, -1)
  induction terms with
  | nil => intro acc; simp
  | cons t ts ih =>
    intro acc
    simp only [List.foldl_cons, List.map_cons, List.sum_cons]
    have hstep : (tokenStep hay acc t).1 ≤ acc.1 + min 25 (2 * t.length) := by
      unfold tokenStep
      rcases stemFirstIndex hay t with _ | j <;> simp
    have := ih (tokenStep hay acc t)
    omega

/-- Each term contributes at most 25. -/
theorem sum_min25_le (l : List Str) :
    (l.map (fun t => min 25 (2 * t.length))).sum ≤ 25 * l.length := by
  induction l with
  | nil => simp
  | cons x xs ih =>
    simp only [List.map_cons, List.sum_cons, List.length_cons]
    omega

/-- C3: when the normalized query phrase (non-empty, under 80 characters,
at most 5 tokens) occurs as a substring of the normalized haystack, the
exact-phrase score `120 + phraseLength` is awarded and strictly exceeds
the token-path score the same query would earn on that haystack. -/
theorem C3_phrase_beats_tokens (hayRaw q : Str)
    (hne : normalize q ≠ [])
    (hlen : (normalize q).length < 80)
    (hterms : (tokenize q).length ≤ 5)
    (hfound : (jsIndexOf (normalize hayRaw) (normalize q)).isSome) :
    (bestScore hayRaw (normalize q) (tokenize q)).score = 120 + (normalize q).length ∧
    (tokenScan (normalize hayRaw) (tokenize q)).1 < 120 + (normalize q).length := by
  constructor
  · obtain ⟨idx, hidx⟩ := Option.isSome_iff_exists.mp hfound
    have hemp : (normalize q).isEmpty = false := by
      rcases h : normalize q with _ | ⟨c, cs⟩
      · exact absurd h hne
      · rfl
    simp [bestScore, hemp, hidx]
  · have h1 := tokenScan_le (normalize hayRaw) (tokenize q)
    have h2 := sum_min25_le (tokenize q)
    have h3 := tokenize_length_bound q
    have h4 := card_le_sum_lengths (tokenize q) (tokenize_pos_length q)
    omega

theorem C3_phrase_beats_tokens_witness :
    normalize "tax code".data ≠ [] ∧
    (normalize "tax code".data).length < 80 ∧
    (tokenize "tax code".data).length ≤ 5 ∧
    (jsIndexOf (normalize "the tax code x".data) (normalize "tax code".data)).isSome ∧
    ((bestScore "the tax code x".data (normalize "tax code".data)
        (tokenize "tax code".data)).score = 120 + (normalize "tax code".data).length ∧
      (tokenScan (normalize "the tax code x".data) (tokenize "tax code".data)).1 <
        120 + (normalize "tax code".data).length) :=
  ⟨by decide, by decide, by decide, by decide,
   C3_phrase_beats_tokens "the tax code x".data "tax code".data
     (by decide) (by decide) (by decide) (by decide)⟩

/-- Models `bestScore` never exceeds the larger of the exact-phrase score and 25
per term. -/
theorem bestScore_le (hayRaw phrase : Str) (terms : List Str) :
    (bestScore hayRaw phrase terms).score ≤
      max (120 + phrase.length) (25 * terms.length) := by
  unfold bestScore
  dsimp only
  rcases hidx : (if phrase.isEmpty then none
      else jsIndexOf (normalize hayRaw) phrase) with _ | idx
  · dsimp only
    by_cases hpos : (tokenScan (normalize hayRaw) terms).1 > 0
    · rw [if_pos hpos]
      have h1 := tokenScan_le (normalize hayRaw) terms
      have h2 := sum_min25_le terms
      dsimp only
      omega
    · rw [if_neg hpos]
      simp
  · dsimp only
    exact le_max_left _ _

/-- Every scored hit's score obeys the `bestScore` bound, given bounds on
the variants' phrase and term sizes. -/
theorem scoredHits_score_lt (S : List Sect) (q : Str)
    (hvar : ∀ v ∈ expandSynonyms q,
      (normalize v).length ≤ 878 ∧ (tokenize v).length ≤ 35) :
    ∀ h ∈ scoredHits S q, h.score < 999 := by
  intro h hm
  unfold scoredHits at hm
  obtain ⟨v, hv, hm2⟩ := List.mem_flatMap.mp hm
  obtain ⟨s, _, hf⟩ := List.mem_filterMap.mp hm2
  have hb := bestScore_le s.text (normalize v) (tokenize v)
  have hbound := hvar v hv
  unfold scoredOne at hf
  dsimp only at hf
  by_cases hpos : (bestScore s.text (normalize v) (tokenize v)).score > 0
  · rw [if_pos hpos] at hf
    cases hf
    dsimp only
    omega
  · rw [if_neg hpos] at hf
    cases hf

/-- C10: for a query matching the article-citation pattern (the keyword
"стать" with one of the suffixes ь/я/и, optionally "№", then a numeral of
1-4 digits, case-insensitively), every section whose text matches the
line-anchored header `СТАТЬЯ/Статья N` contributes a candidate hit with
fixed score 999, independently of the phrase/token scoring; and for
typical query sizes (every variant's phrase at most 878 characters and at
most 35 terms) every scored hit stays strictly below 999, so such
citation hits outrank ordinary scored hits. -/
theorem C10_citation_priority (S : List Sect) (q num : Str) (s : Sect)
    (hq : citationNum q = some num) (hs : s ∈ S)
    (hart : (artIndex s.text num).isSome)
    (hvar : ∀ v ∈ expandSynonyms q,
      (normalize v).length ≤ 878 ∧ (tokenize v).length ≤ 35) :
    (∃ h ∈ allCandidates S q, h.id = s.id ∧ h.score = 999) ∧
    (∀ h ∈ scoredHits S q, h.score < 999) := by
  obtain ⟨pos, hpos⟩ := Option.isSome_iff_exists.mp hart
  have hh0 : Hit.mk s.id s.title s.url 999
      (makeSnippet s.text pos (pos + num.length + 20)) ∈ priorityHits S q := by
    unfold priorityHits
    rw [hq]
    exact List.mem_filterMap.mpr ⟨s, hs, by rw [hpos]; rfl⟩
  have hne : priorityHits S q ++ scoredHits S q ≠ [] := by
    intro hc
    rw [List.append_eq_nil] at hc
    rw [hc.1] at hh0
    exact List.not_mem_nil _ hh0
  constructor
  · refine ⟨Hit.mk s.id s.title s.url 999
      (makeSnippet s.text pos (pos + num.length + 20)), ?_, rfl, rfl⟩
    unfold allCandidates
    rw [if_neg (by simpa [List.isEmpty_iff] using hne)]
    exact List.mem_append_left _ hh0
  · exact scoredHits_score_lt S q hvar

def c10Store : List Sect :=
  [{ id := 1, title := "t".data, url := "u".data, text := "Статья 5. текст".data }]

theorem C10_citation_priority_witness :
    citationNum "статья 5".data = some "5".data ∧
    ({ id := 1, title := "t".data, url := "u".data,
       text := "Статья 5. текст".data } : Sect) ∈ c10Store ∧
    (artIndex "Статья 5. текст".data "5".data).isSome ∧
    (∀ v ∈ expandSynonyms "статья 5".data,
      (normalize v).length ≤ 878 ∧ (tokenize v).length ≤ 35) ∧
    ((∃ h ∈ allCandidates c10Store "статья 5".data, h.id = 1 ∧ h.score = 999) ∧
      (∀ h ∈ scoredHits c10Store "статья 5".data, h.score < 999)) :=
  ⟨by decide, by decide, by decide, by decide,
   C10_citation_priority c10Store "статья 5".data "5".data
     { id := 1, title := "t".data, url := "u".data, text := "Статья 5. текст".data }
     (by decide) (by decide) (by decide) (by decide)⟩

/-- Invariant of the dedup Map loop: after processing `processed`, the
accumulator holds pairwise-distinct ids, each entry is a processed hit of
maximal score among processed hits with its id, and every processed id is
represented. -/
def keepsMax (processed acc : List Hit) : Prop :=
  ((acc.map Hit.id).Nodup) ∧
  (∀ p ∈ acc, p ∈ processed ∧ ∀ h ∈ processed, h.id = p.id → h.score ≤ p.score) ∧
  (∀ h ∈ processed, ∃ p ∈ acc, p.id = h.id)

theorem dedupStep_keepsMax (processed acc : List Hit) (h : Hit)
    (H : keepsMax processed acc) : keepsMax (processed ++ [h]) (dedupStep acc h) := by
  obtain ⟨hnd, hbest, hcover⟩ := H
  unfold dedupStep
  by_cases hex : acc.any (fun p => p.id == h.id)
  · rw [if_pos hex]
    refine ⟨?_, ?_, ?_⟩
    · have hids : (acc.map fun p =>
          if p.id == h.id && decide (p.score < h.score) then h else p).map Hit.id =
          acc.map Hit.id := by
        rw [List.map_map]
        apply List.map_congr_left
        intro p hp
        simp only [Function.comp_apply]
        by_cases hc : (p.id == h.id && decide (p.score < h.score)) = true
        · have hc2 := hc
          simp only [Bool.and_eq_true, beq_iff_eq, decide_eq_true_eq] at hc2
          rw [if_pos hc]
          exact hc2.1.symm
        · rw [if_neg hc]
      rw [hids]
      exact hnd
    · intro p' hp'
      obtain ⟨p, hp, rfl⟩ := List.mem_map.mp hp'
      by_cases hc : (p.id == h.id && decide (p.score < h.score)) = true
      · have hc2 := hc
        simp only [Bool.and_eq_true, beq_iff_eq, decide_eq_true_eq] at hc2
        obtain ⟨hip, hsc⟩ := hc2
        rw [if_pos hc]
        refine ⟨List.mem_append_right _ (by simp), ?_⟩
        intro h2 hh2 hid2
        rcases List.mem_append.mp hh2 with hh2 | hh2
        · have := (hbest p hp).2 h2 hh2 (by rw [hid2, ← hip])
          omega
        · have he : h2 = h := by simpa using hh2
          rw [he]
      · rw [if_neg hc]
        have hnc : ¬ (p.id = h.id ∧ p.score < h.score) := by
          simpa using hc
        refine ⟨List.mem_append_left _ (hbest p hp).1, ?_⟩
        intro h2 hh2 hid2
        rcases List.mem_append.mp hh2 with hh2 | hh2
        · exact (hbest p hp).2 h2 hh2 hid2
        · have he : h2 = h := by simpa using hh2
          rw [he] at hid2 ⊢
          by_cases hip : p.id = h.id
          · have : ¬ p.score < h.score := fun hlt => hnc ⟨hip, hlt⟩
            omega
          · exact absurd hid2.symm hip
    · intro h2 hh2
      rcases List.mem_append.mp hh2 with hh2 | hh2
      · obtain ⟨p, hp, hpid⟩ := hcover h2 hh2
        refine ⟨if p.id == h.id && decide (p.score < h.score) then h else p,
          List.mem_map_of_mem _ hp, ?_⟩
        by_cases hc : (p.id == h.id && decide (p.score < h.score)) = true
        · have hc2 := hc
          simp only [Bool.and_eq_true, beq_iff_eq, decide_eq_true_eq] at hc2
          rw [if_pos hc, ← hc2.1]
          exact hpid
        · rw [if_neg hc]
          exact hpid
      · have he : h2 = h := by simpa using hh2
        obtain ⟨p, hp, hpe⟩ := List.any_eq_true.mp hex
        have hip : p.id = h.id := by simpa using hpe
        refine ⟨if p.id == h.id && decide (p.score < h.score) then h else p,
          List.mem_map_of_mem _ hp, ?_⟩
        by_cases hc : (p.id == h.id && decide (p.score < h.score)) = true
        · rw [if_pos hc, he]
        · rw [if_neg hc, he]
          exact hip
  · rw [if_neg hex]
    have hfresh : ∀ p ∈ acc, p.id ≠ h.id := by
      intro p hp hpe
      exact hex (List.any_eq_true.mpr ⟨p, hp, by simpa using hpe⟩)
    refine ⟨?_, ?_, ?_⟩
    · rw [List.map_append]
      refine List.Nodup.append hnd (by simp) ?_
      intro a ha hb
      obtain ⟨p, hp, hpid⟩ := List.mem_map.mp ha
      have hae : a = h.id := by simpa using hb
      exact hfresh p hp (by rw [hpid, hae])
    · intro p hp
      rcases List.mem_append.mp hp with hp | hp
      · refine ⟨List.mem_append_left _ (hbest p hp).1, ?_⟩
        intro h2 hh2 hid2
        rcases List.mem_append.mp hh2 with hh2 | hh2
        · exact (hbest p hp).2 h2 hh2 hid2
        · have he : h2 = h := by simpa using hh2
          rw [he] at hid2
          exact absurd hid2 (fun heq => hfresh p hp heq.symm)
      · have he : p = h := by simpa using hp
        refine ⟨List.mem_append_right _ (by simp [he]), ?_⟩
        intro h2 hh2 hid2
        rcases List.mem_append.mp hh2 with hh2 | hh2
        · obtain ⟨p2, hp2, hpid2⟩ := hcover h2 hh2
          rw [he] at hid2
          exact absurd (hpid2.trans hid2) (hfresh p2 hp2)
        · have he2 : h2 = h := by simpa using hh2
          rw [he2, he]
    · intro h2 hh2
      rcases List.mem_append.mp hh2 with hh2 | hh2
      · obtain ⟨p, hp, hpid⟩ := hcover h2 hh2
        exact ⟨p, List.mem_append_left _ hp, hpid⟩
      · have he : h2 = h := by simpa using hh2
        exact ⟨h, List.mem_append_right _ (by simp), by rw [he]⟩


theorem foldl_keepsMax (hits : List Hit) : ∀ processed acc : List Hit,
    keepsMax processed acc →
    keepsMax (processed ++ hits) (hits.foldl dedupStep acc) := by
  induction hits with
  | nil =>
    intro processed acc H
    simpa using H
  | cons x xs ih =>
    intro processed acc H
    have := ih (processed ++ [x]) (dedupStep acc x) (dedupStep_keepsMax _ _ _ H)
    simpa [List.append_assoc] using this

/-- Models `dedupHits` keeps exactly one (maximal-score) hit per id. -/
theorem dedupHits_keepsMax (hits : List Hit) : keepsMax hits (dedupHits hits) := by
  have h0 : keepsMax [] [] := ⟨by simp, by simp, by simp⟩
  have := foldl_keepsMax hits [] [] h0
  simpa [dedupHits] using this

/-- The final slice is a sublist of the sorted list. -/
theorem jsSliceTo_sublist (l : List Hit) (e : LimitVal) : (jsSliceTo l e).Sublist l := by
  rcases e with n | _
  · simp only [jsSliceTo]
    split
    · exact List.take_sublist _ _
    · exact List.take_sublist _ _
  · exact List.nil_sublist l

/-- C7: in the returned results each section id appears at most once, the
hit kept for an id has the maximum score among all candidate hits with
that id (across the priority, scored and fallback phases), and the list
is sorted by score descending. -/
theorem C7_dedup_max_sorted (S : List Sect) (q : Str) (lim : Option LimitVal) :
    ((searchResults S q lim).map Hit.id).Nodup ∧
    (searchResults S q lim).Pairwise (fun a b => b.score ≤ a.score) ∧
    (∀ h ∈ searchResults S q lim,
      h ∈ allCandidates S q ∧
      ∀ h2 ∈ allCandidates S q, h2.id = h.id → h2.score ≤ h.score) := by
  have hspec := dedupHits_keepsMax (allCandidates S q)
  have hperm : sortHits (dedupHits (allCandidates S q)) |>.Perm
      (dedupHits (allCandidates S q)) := List.perm_insertionSort _ _
  have hres : searchResults S q lim =
      jsSliceTo (sortHits (dedupHits (allCandidates S q))) (effLimit lim) := rfl
  have hsub : (searchResults S q lim).Sublist
      (sortHits (dedupHits (allCandidates S q))) := by
    rw [hres]
    exact jsSliceTo_sublist _ _
  refine ⟨?_, ?_, ?_⟩
  · have h2 : ((sortHits (dedupHits (allCandidates S q))).map Hit.id).Nodup :=
      ((hperm.map Hit.id).nodup_iff).mpr hspec.1
    exact List.Nodup.sublist (hsub.map Hit.id) h2
  · have hsorted : (sortHits (dedupHits (allCandidates S q))).Pairwise hitGE :=
      List.sorted_insertionSort hitGE _
    exact List.Pairwise.sublist hsub hsorted
  · intro h hh
    have hmem : h ∈ dedupHits (allCandidates S q) :=
      hperm.mem_iff.mp (hsub.subset hh)
    exact hspec.2.1 h hmem

theorem C7_dedup_max_sorted_witness :
    ((searchResults cexC6Store cexC6Query (some (LimitVal.num 3))).map Hit.id).Nodup ∧
    (searchResults cexC6Store cexC6Query (some (LimitVal.num 3))).Pairwise
      (fun a b => b.score ≤ a.score) ∧
    (∀ h ∈ searchResults cexC6Store cexC6Query (some (LimitVal.num 3)),
      h ∈ allCandidates cexC6Store cexC6Query ∧
      ∀ h2 ∈ allCandidates cexC6Store cexC6Query, h2.id = h.id → h2.score ≤ h.score) :=
  C7_dedup_max_sorted cexC6Store cexC6Query (some (LimitVal.num 3))

end TaxCode
